import Mathlib

/-!
Verification development for the techzdl segmented HTTP downloader.

Shallow embedding of the components of src/techzdl (the authoritative copy
of the package): the adjustable semaphore of extra.py, the chunk planner,
the chunk worker retry loop, the dynamic worker controller, the probe /
file-info retry loops and the stop operation of TechZDL in its main module.
-/

namespace TDL

/-! ## ChunkPlanner

Embeds the chunk range computation of TechZDL._multi_threaded_download and
TechZDL._temp_file_creator:

    total_chunks = (self.total_size + self.chunk_size - 1) // self.chunk_size
    start = i * self.chunk_size
    end = min(start + self.chunk_size - 1, self.total_size - 1)
-/

def totalChunks (totalSize chunkSize : Nat) : Nat :=
  (totalSize + chunkSize - 1) / chunkSize

def chunkStart (chunkSize i : Nat) : Nat := i * chunkSize

def chunkEnd (totalSize chunkSize i : Nat) : Nat :=
  min (i * chunkSize + chunkSize - 1) (totalSize - 1)

def chunkPlan (totalSize chunkSize : Nat) : List (Nat × Nat) :=
  (List.range (totalChunks totalSize chunkSize)).map
    (fun i => (chunkStart chunkSize i, chunkEnd totalSize chunkSize i))

/-- Length in bytes of one planned chunk, as written by _temp_file_creator
(end - start + 1). -/
def chunkLen (p : Nat × Nat) : Nat := p.2 - p.1 + 1

/-! ## AdjustableSemaphore (src/techzdl/extra.py)

State machine over the observable events of the semaphore.  An acquire
event occurs only when the caller can actually get through the
`while self._value <= 0: wait()` loop, i.e. when the counter is positive;
acquire then decrements the counter, release increments it, and
set_limit executes `self._value += new_limit - self._value`.
The holders field is the ghost count of completed acquires without their
matching release. -/

inductive SemOp where
  | acquire : SemOp
  | release : SemOp
  | setLimit : Int → SemOp
deriving DecidableEq, Repr

structure SemState where
  value : Int
  holders : Nat
deriving DecidableEq, Repr

def semStep (s : SemState) : SemOp → Option SemState
  | SemOp.acquire =>
      if 0 < s.value then some ⟨s.value - 1, s.holders + 1⟩ else none
  | SemOp.release =>
      if 0 < s.holders then some ⟨s.value + 1, s.holders - 1⟩ else none
  | SemOp.setLimit n => some ⟨s.value + (n - s.value), s.holders⟩

def semRun (s : SemState) : List SemOp → Option SemState
  | [] => some s
  | op :: ops =>
      match semStep s op with
      | none => none
      | some s1 => semRun s1 ops

/-- The limit currently in force: the argument of the last set_limit event,
or the initial limit when no set_limit has occurred. -/
def currentLimit (init : Int) : List SemOp → Int
  | [] => init
  | SemOp.setLimit n :: ops => currentLimit n ops
  | _ :: ops => currentLimit init ops

/-- Same machine with ghost base annotations: baseLimit and baseHolders
record the argument of the last set_limit event and the holder count at
that moment (initially the starting limit and 0). -/
structure SemB where
  st : SemState
  baseLimit : Int
  baseHolders : Nat
deriving DecidableEq, Repr

def semStepB (b : SemB) : SemOp → Option SemB
  | SemOp.acquire =>
      if 0 < b.st.value then
        some ⟨⟨b.st.value - 1, b.st.holders + 1⟩, b.baseLimit, b.baseHolders⟩
      else none
  | SemOp.release =>
      if 0 < b.st.holders then
        some ⟨⟨b.st.value + 1, b.st.holders - 1⟩, b.baseLimit, b.baseHolders⟩
      else none
  | SemOp.setLimit n =>
      some ⟨⟨b.st.value + (n - b.st.value), b.st.holders⟩, n, b.st.holders⟩

def semRunB (b : SemB) : List SemOp → Option SemB
  | [] => some b
  | op :: ops =>
      match semStepB b op with
      | none => none
      | some b1 => semRunB b1 ops

/-! ## Probe transport selection (TechZDL._download_manager, retry loop)

The manager's file-info retry loop runs for i in range(max_retries); each
iteration first closes any open session, opens an aiohttp (primary)
session and probes through it; on failure it falls back to a curl_cffi
(secondary) session for the rest of that iteration; when the secondary
attempt also fails it sleeps 2 ** i and the next iteration starts over
with a fresh aiohttp session.  The model records the sequence of
transports actually attempted; ok i t tells whether the attempt through
transport t in iteration i succeeds. -/

inductive Transport where
  | primary : Transport
  | secondary : Transport
deriving DecidableEq, Repr, BEq

def probeGo (ok : Nat → Transport → Bool) : Nat → Nat → List Transport × Bool
  | _, 0 => ([], false)
  | i, rem + 1 =>
      if ok i Transport.primary then ([Transport.primary], true)
      else if ok i Transport.secondary then
        ([Transport.primary, Transport.secondary], true)
      else
        let r := probeGo ok (i + 1) rem
        (Transport.primary :: Transport.secondary :: r.1, r.2)

def probeTrace (maxRetries : Nat) (ok : Nat → Transport → Bool) :
    List Transport × Bool :=
  probeGo ok 0 maxRetries

/-- The one-way fallback property the spec asserts of the attempt
sequence: once the secondary transport has been used, every later attempt
uses the secondary transport. -/
def oneWayFallback : List Transport → Bool
  | [] => true
  | Transport.primary :: rest => oneWayFallback rest
  | Transport.secondary :: rest => rest.all (fun t => t == Transport.secondary)

/-! ## The shared size_done counter (TechZDL)

Events that touch self.size_done during a session, and where they come
from: _temp_file_creator adds end - start + 1 per chunk;
_multi_threaded_download executes self.size_done = 0 right after the temp
file phase; _load_chunk adds len(chunk) after a completed write;
_single_threaded_download executes self.size_done = 0 at the start of
every retry attempt and its child adds len(chunk) per streamed chunk. -/

inductive SizeEvent where
  | write : Nat → SizeEvent
  | reset : SizeEvent
deriving DecidableEq, Repr

def applySize (sd : Nat) : SizeEvent → Nat
  | SizeEvent.write n => sd + n
  | SizeEvent.reset => 0

/-- The successive values of size_done, starting from 0, along a list of
events. -/
def sizeTrace (evs : List SizeEvent) : List Nat :=
  List.scanl applySize 0 evs

/-- Monotone non-decreasing, at every adjacent pair of the list. -/
def nonDecreasingB : List Nat → Bool
  | a :: b :: rest => (decide (a ≤ b)) && nonDecreasingB (b :: rest)
  | _ => true

/-- Every adjacent step either does not decrease or lands on 0 (a reset). -/
def resetMonoB : List Nat → Bool
  | a :: b :: rest => (decide (a ≤ b) || decide (b = 0)) && resetMonoB (b :: rest)
  | _ => true

/-- Events of the temp file creation phase: one write of end - start + 1
bytes per planned chunk, in planner order. -/
def tempFileEvents (totalSize chunkSize : Nat) : List SizeEvent :=
  (chunkPlan totalSize chunkSize).map (fun p => SizeEvent.write (chunkLen p))

/-- Events of one multi-threaded session: the temp-file phase, then the
manager's reset (self.size_done = 0 after _temp_file_creator), then one
write of len(chunk) per completed chunk body, in completion order. -/
def multiSessionEvents (totalSize chunkSize : Nat) (bodyLens : List Nat) :
    List SizeEvent :=
  tempFileEvents totalSize chunkSize ++ [SizeEvent.reset] ++
    bodyLens.map SizeEvent.write

/-- Events of a single-threaded session: each retry attempt first resets
size_done to 0, then adds the lengths of the chunks it streamed before
finishing or failing. -/
def singleSessionEvents (attempts : List (List Nat)) : List SizeEvent :=
  attempts.flatMap (fun ws => SizeEvent.reset :: ws.map SizeEvent.write)

/-! ## ChunkWorker (TechZDL._load_chunk)

The worker acquires the semaphore, then runs for i in range(max_retries):
issue the range request and read the body; on success write the bytes,
add len(chunk) to size_done and break; on an application error raise it
when i == max_retries - 1, otherwise sleep 2 ** i and retry.  A
cancellation signal is not an Exception in the inner handler, so it
escapes to the outer `except CancelledError: pass`; an application error
escaping the loop is re-raised by the outer handler; the finally clause
releases the semaphore on every path.  att i describes the outcome of
attempt i. -/

inductive Att where
  | success : Nat → Att
  | failure : String → Att
  | cancelled : Att
deriving DecidableEq, Repr

inductive LoopExit where
  | completed : Nat → LoopExit
  | failed : String → LoopExit
  | cancelledExit : LoopExit
deriving DecidableEq, Repr

structure LoopRes where
  attempts : Nat
  sleeps : List Nat
  exit : LoopExit
deriving DecidableEq, Repr

def chunkLoop (att : Nat → Att) : Nat → Nat → LoopRes
  | _, 0 => ⟨0, [], LoopExit.completed 0⟩
  | i, rem + 1 =>
      match att i with
      | Att.success n => ⟨1, [], LoopExit.completed n⟩
      | Att.cancelled => ⟨1, [], LoopExit.cancelledExit⟩
      | Att.failure e =>
          if rem = 0 then ⟨1, [], LoopExit.failed e⟩
          else
            let r := chunkLoop att (i + 1) rem
            ⟨r.attempts + 1, 2 ^ i :: r.sleeps, r.exit⟩

structure ChunkRun where
  attemptsMade : Nat
  sleeps : List Nat
  sizeAdded : Nat
  releases : Nat
  raised : Option String
deriving DecidableEq, Repr

def loadChunk (maxRetries : Nat) (att : Nat → Att) : ChunkRun :=
  let r := chunkLoop att 0 maxRetries
  match r.exit with
  | LoopExit.completed n => ⟨r.attempts, r.sleeps, n, 1, none⟩
  | LoopExit.failed e => ⟨r.attempts, r.sleeps, 0, 1, some e⟩
  | LoopExit.cancelledExit => ⟨r.attempts, r.sleeps, 0, 1, none⟩

/-! ## DynamicWorkerController (TechZDL._dynamic_worker_updater)

Each sample computes speed = (size_done - prev_downloaded) / interval; if
speed > prev_speed the worker count grows by 2 and set_limit is called;
if speed < prev_speed it becomes max(2, dynamic_workers - 2) and
set_limit is called; otherwise no call is made; prev_downloaded and
prev_speed are then updated.  The emitted list collects the set_limit
arguments. -/

/-- An exact rational speed value, delta bytes over interval seconds.
Python computes the quotient as a float; the model keeps the fraction and
compares by cross multiplication, which is the exact real comparison
whenever the denominators are positive. -/
structure Speed where
  num : Int
  den : Nat
deriving DecidableEq, Repr

def speedLt (a b : Speed) : Bool :=
  decide (a.num * (b.den : Int) < b.num * (a.den : Int))

structure CtrlState where
  dw : Int
  prevDownloaded : Int
  prevSpeed : Speed
deriving DecidableEq, Repr

def ctrlStep (interval : Nat) (sizeDone : Int) (s : CtrlState) :
    CtrlState × Option Int :=
  let speed : Speed := ⟨sizeDone - s.prevDownloaded, interval⟩
  if speedLt s.prevSpeed speed then
    (⟨s.dw + 2, sizeDone, speed⟩, some (s.dw + 2))
  else if speedLt speed s.prevSpeed then
    (⟨max 2 (s.dw - 2), sizeDone, speed⟩, some (max 2 (s.dw - 2)))
  else
    (⟨s.dw, sizeDone, speed⟩, none)

def ctrlRun (interval : Nat) (s : CtrlState) : List Int → CtrlState × List Int
  | [] => (s, [])
  | sd :: rest =>
      let p := ctrlStep interval sd s
      let q := ctrlRun interval p.1 rest
      (q.1, p.2.toList ++ q.2)

/-! ## get_file_info (TechZDL.get_file_info)

The probe returns {filename, total_size}.  Filename derivation
(get_filename in extra.py) is a pure helper over the response headers,
the final response url and the downloader id; the model abstracts it as
the function argument fname.  prim i / sec i give the network outcome of
the aiohttp and curl_cffi attempts of retry iteration i; a response whose
Content-Length parses to 0 raises inside the same handler as a transport
error.  The effect list records, in order, every externally visible
operation the call performs. -/

structure ProbeResp (H : Type) where
  contentLength : Nat
  headers : H
  url : String

inductive NetResult (H : Type) where
  | ok : ProbeResp H → NetResult H
  | err : String → NetResult H

inductive Effect where
  | netGetPrimary : Effect
  | netGetSecondary : Effect
  | sleep : Nat → Effect
  | diskWrite : Effect
  | diskDelete : Effect
deriving DecidableEq, Repr

def clMissingMsg : String := "Content-Length header is missing or invalid"

def attemptResult {H : Type} (fname : H → String → String → String)
    (id : String) : NetResult H → Except String (String × Nat)
  | NetResult.err e => Except.error e
  | NetResult.ok r =>
      if r.contentLength = 0 then Except.error clMissingMsg
      else Except.ok (fname r.headers r.url id, r.contentLength)

def getFileInfoGo {H : Type} (fname : H → String → String → String)
    (id : String) (prim sec : Nat → NetResult H) :
    Nat → Nat → List Effect × Except String (String × Nat)
  | _, 0 => ([], Except.error "UnboundLocalError")
  | i, rem + 1 =>
      match attemptResult fname id (prim i) with
      | Except.ok v => ([Effect.netGetPrimary], Except.ok v)
      | Except.error _ =>
          match attemptResult fname id (sec i) with
          | Except.ok v =>
              ([Effect.netGetPrimary, Effect.netGetSecondary], Except.ok v)
          | Except.error e2 =>
              if rem = 0 then
                ([Effect.netGetPrimary, Effect.netGetSecondary],
                  Except.error e2)
              else
                let r := getFileInfoGo fname id prim sec (i + 1) rem
                (Effect.netGetPrimary :: Effect.netGetSecondary ::
                  Effect.sleep (2 ^ i) :: r.1, r.2)

def getFileInfo {H : Type} (fname : H → String → String → String)
    (id : String) (maxRetries : Nat) (prim sec : Nat → NetResult H) :
    List Effect × Except String (String × Nat) :=
  getFileInfoGo fname id prim sec 0 maxRetries

/-! ## stop (TechZDL.stop)

When is_running, stop cancels every registered downloader task, awaits
them, logs a warning, runs _cleanup and clears is_running; otherwise it
only logs a warning and leaves everything untouched. -/

structure DLState where
  isRunning : Bool
  downloadSuccess : Bool
  downloadError : Option String
  tasks : List Nat
deriving DecidableEq, Repr

inductive StopEffect where
  | cancelTask : Nat → StopEffect
  | warnLog : String → StopEffect
  | cleanupRun : StopEffect
deriving DecidableEq, Repr

def stopNotRunningMsg : String :=
  "Download process is not running! Why are you trying to stop it."

def stop (s : DLState) : DLState × List StopEffect :=
  if s.isRunning then
    ({ s with isRunning := false },
      s.tasks.map StopEffect.cancelTask ++
        [StopEffect.warnLog "Download process stopped", StopEffect.cleanupRun])
  else
    (s, [StopEffect.warnLog stopNotRunningMsg])

/-! # Theorems -/

/-- totalChunks is Mathlib's ceiling division. -/
theorem totalChunks_eq_ceilDiv (t c : Nat) : totalChunks t c = t ⌈/⌉ c :=
  (Nat.ceilDiv_eq_add_pred_div t c).symm

theorem totalChunks_le_iff (t c k : Nat) (hc : 0 < c) :
    totalChunks t c ≤ k ↔ t ≤ c * k := by
  rw [totalChunks_eq_ceilDiv]
  exact (ceilDiv_le_iff_le_smul hc).trans (by rw [smul_eq_mul])

theorem le_mul_totalChunks (t c : Nat) (hc : 0 < c) :
    t ≤ c * totalChunks t c :=
  (totalChunks_le_iff t c _ hc).mp (le_refl _)

/-- Claim C2: for every total_size > 0 and chunk_size > 0 the chunk plan
consists of exactly ceil(total_size / chunk_size) chunks, chunk i spans
[i * chunk_size, min ((i + 1) * chunk_size - 1, total_size - 1)], the
ranges are contiguous, non-overlapping, and their union is exactly
[0, total_size). -/
theorem chunkPlan_spec (t c : Nat) (ht : 0 < t) (hc : 0 < c) :
    (chunkPlan t c).length = t ⌈/⌉ c ∧
    (∀ i, i < totalChunks t c →
      (chunkPlan t c)[i]? = some (i * c, min ((i + 1) * c - 1) (t - 1))) ∧
    (∀ i, i + 1 < totalChunks t c →
      chunkStart c (i + 1) = chunkEnd t c i + 1) ∧
    (∀ i j, i < j → j < totalChunks t c → chunkEnd t c i < chunkStart c j) ∧
    (∀ b, b < t ↔
      ∃ i, i < totalChunks t c ∧ chunkStart c i ≤ b ∧ b ≤ chunkEnd t c i) := by
  refine ⟨?_, ?_, ?_, ?_, ?_⟩
  · simp [chunkPlan, totalChunks_eq_ceilDiv]
  · intro i hi
    have h1 : (i + 1) * c = i * c + c := by ring
    simp [chunkPlan, List.getElem?_map, List.getElem?_range, hi, chunkStart,
      chunkEnd, h1]
  · intro i hi
    have h2 : ¬ t ≤ c * (i + 1) := fun h =>
      absurd ((totalChunks_le_iff t c (i + 1) hc).mpr h) (by omega)
    have h3 : c * (i + 1) = c * i + c := by ring
    have h4 : i * c = c * i := Nat.mul_comm i c
    have h5 : (i + 1) * c = c * (i + 1) := Nat.mul_comm _ _
    simp only [chunkStart, chunkEnd]
    omega
  · intro i j hij hj
    have h4 : i * c = c * i := Nat.mul_comm i c
    have h6 : j * c = c * j := Nat.mul_comm j c
    have h7 : c * i + c ≤ c * j := by
      have h : i + 1 ≤ j := hij
      calc c * i + c = c * (i + 1) := by ring
        _ ≤ c * j := Nat.mul_le_mul le_rfl h
    simp only [chunkStart, chunkEnd]
    omega
  · intro b
    constructor
    · intro hb
      refine ⟨b / c, ?_, ?_, ?_⟩
      · rw [Nat.div_lt_iff_lt_mul hc]
        have h8 := le_mul_totalChunks t c hc
        have h9 : totalChunks t c * c = c * totalChunks t c := Nat.mul_comm _ _
        omega
      · simpa [chunkStart] using Nat.div_mul_le_self b c
      · have hdm := Nat.div_add_mod' b c
        have hmod := Nat.mod_lt b hc
        simp only [chunkStart, chunkEnd]
        omega
    · rintro ⟨i, hi, hsb, hbe⟩
      simp only [chunkEnd] at hbe
      omega

/-- Claim C2 witness: the spec's example, a 17 MiB resource with 5 MiB
chunk size yields 4 chunks of sizes 5 MiB, 5 MiB, 5 MiB and 2 MiB. -/
theorem chunkPlan_spec_witness :
    0 < 17 * 1024 * 1024 ∧ 0 < 5 * 1024 * 1024 ∧
    (chunkPlan (17 * 1024 * 1024) (5 * 1024 * 1024)).map chunkLen =
      [5 * 1024 * 1024, 5 * 1024 * 1024, 5 * 1024 * 1024, 2 * 1024 * 1024] ∧
    ((chunkPlan (17 * 1024 * 1024) (5 * 1024 * 1024)).length =
        (17 * 1024 * 1024) ⌈/⌉ (5 * 1024 * 1024) ∧
      (∀ i, i < totalChunks (17 * 1024 * 1024) (5 * 1024 * 1024) →
        (chunkPlan (17 * 1024 * 1024) (5 * 1024 * 1024))[i]? =
          some (i * (5 * 1024 * 1024),
            min ((i + 1) * (5 * 1024 * 1024) - 1) (17 * 1024 * 1024 - 1))) ∧
      (∀ i, i + 1 < totalChunks (17 * 1024 * 1024) (5 * 1024 * 1024) →
        chunkStart (5 * 1024 * 1024) (i + 1) =
          chunkEnd (17 * 1024 * 1024) (5 * 1024 * 1024) i + 1) ∧
      (∀ i j, i < j → j < totalChunks (17 * 1024 * 1024) (5 * 1024 * 1024) →
        chunkEnd (17 * 1024 * 1024) (5 * 1024 * 1024) i <
          chunkStart (5 * 1024 * 1024) j) ∧
      (∀ b, b < 17 * 1024 * 1024 ↔
        ∃ i, i < totalChunks (17 * 1024 * 1024) (5 * 1024 * 1024) ∧
          chunkStart (5 * 1024 * 1024) i ≤ b ∧
          b ≤ chunkEnd (17 * 1024 * 1024) (5 * 1024 * 1024) i)) :=
  ⟨by decide, by decide, by decide,
    chunkPlan_spec (17 * 1024 * 1024) (5 * 1024 * 1024) (by decide) (by decide)⟩

/-- Claim C1 counterexample: from initial limit 2, the event sequence
acquire, acquire, set_limit 2, acquire is executable and ends with 3
holders while the current limit is 2, because set_limit assigns the
internal counter to its argument outright instead of adjusting it by the
difference of limits; moreover set_limit (-1) leaves the counter at -1,
below 0.  This refutes both parts of the claim as stated. -/
theorem semaphore_counterexample :
    semRun ⟨2, 0⟩
        [SemOp.acquire, SemOp.acquire, SemOp.setLimit 2, SemOp.acquire] =
      some ⟨1, 3⟩ ∧
    currentLimit 2
        [SemOp.acquire, SemOp.acquire, SemOp.setLimit 2, SemOp.acquire] = 2 ∧
    ¬ ((3 : Int) ≤ (2 : Int)) ∧
    semRun ⟨2, 0⟩ [SemOp.setLimit (-1)] = some ⟨-1, 0⟩ ∧ ((-1 : Int) < 0) := by
  decide

/-- Invariant of the annotated semaphore machine: the counter plus the
holder count always equals the last set_limit argument plus the holder
count at that set_limit, and the counter never drops below min of that
argument and 0. -/
theorem semRunB_inv (ops : List SemOp) (b b' : SemB)
    (h : semRunB b ops = some b')
    (hv : b.st.value + (b.st.holders : Int) = b.baseLimit + (b.baseHolders : Int))
    (hm : min b.baseLimit 0 ≤ b.st.value) :
    b'.st.value + (b'.st.holders : Int) = b'.baseLimit + (b'.baseHolders : Int) ∧
    min b'.baseLimit 0 ≤ b'.st.value := by
  induction ops generalizing b with
  | nil =>
    simp only [semRunB] at h
    cases h
    exact ⟨hv, hm⟩
  | cons op ops ih =>
    cases op with
    | acquire =>
      by_cases hval : 0 < b.st.value
      · have h' : semRunB
            ⟨⟨b.st.value - 1, b.st.holders + 1⟩, b.baseLimit, b.baseHolders⟩
            ops = some b' := by
          simpa [semRunB, semStepB, hval] using h
        exact ih _ h' (by dsimp only; omega) (by dsimp only; omega)
      · simp [semRunB, semStepB, hval] at h
    | release =>
      by_cases hh : 0 < b.st.holders
      · have h' : semRunB
            ⟨⟨b.st.value + 1, b.st.holders - 1⟩, b.baseLimit, b.baseHolders⟩
            ops = some b' := by
          simpa [semRunB, semStepB, hh] using h
        exact ih _ h' (by dsimp only; omega) (by dsimp only; omega)
      · simp [semRunB, semStepB, hh] at h
    | setLimit n =>
      have h' : semRunB
          ⟨⟨b.st.value + (n - b.st.value), b.st.holders⟩, n, b.st.holders⟩
          ops = some b' := by
        simpa [semRunB, semStepB] using h
      exact ih _ h' (by dsimp only; omega) (by dsimp only; omega)

/-- Without set_limit events the ghost base annotations never change. -/
theorem semRunB_base (ops : List SemOp) (b b' : SemB)
    (h : semRunB b ops = some b') (hno : ∀ n, SemOp.setLimit n ∉ ops) :
    b'.baseLimit = b.baseLimit ∧ b'.baseHolders = b.baseHolders := by
  induction ops generalizing b with
  | nil =>
    simp only [semRunB] at h
    cases h
    exact ⟨rfl, rfl⟩
  | cons op ops ih =>
    have hno' : ∀ n, SemOp.setLimit n ∉ ops := fun n hn =>
      hno n (List.mem_cons_of_mem _ hn)
    cases op with
    | acquire =>
      by_cases hval : 0 < b.st.value
      · have h' : semRunB
            ⟨⟨b.st.value - 1, b.st.holders + 1⟩, b.baseLimit, b.baseHolders⟩
            ops = some b' := by
          simpa [semRunB, semStepB, hval] using h
        exact ih ⟨⟨b.st.value - 1, b.st.holders + 1⟩, b.baseLimit,
          b.baseHolders⟩ h' hno'
      · simp [semRunB, semStepB, hval] at h
    | release =>
      by_cases hh : 0 < b.st.holders
      · have h' : semRunB
            ⟨⟨b.st.value + 1, b.st.holders - 1⟩, b.baseLimit, b.baseHolders⟩
            ops = some b' := by
          simpa [semRunB, semStepB, hh] using h
        exact ih ⟨⟨b.st.value + 1, b.st.holders - 1⟩, b.baseLimit,
          b.baseHolders⟩ h' hno'
      · simp [semRunB, semStepB, hh] at h
    | setLimit n =>
      exact absurd (List.mem_cons_self _ _) (hno n)

/-- The annotated machine is the semaphore machine with ghost fields. -/
theorem semRunB_proj (ops : List SemOp) (b : SemB) :
    (semRunB b ops).map SemB.st = semRun b.st ops := by
  induction ops generalizing b with
  | nil => simp [semRunB, semRun]
  | cons op ops ih =>
    cases op with
    | acquire =>
      by_cases hval : 0 < b.st.value <;>
        simp [semRunB, semRun, semStepB, semStep, hval, ih]
    | release =>
      by_cases hh : 0 < b.st.holders <;>
        simp [semRunB, semRun, semStepB, semStep, hh, ih]
    | setLimit n =>
      simp [semRunB, semRun, semStepB, semStep, ih]

/-- Claim C1 amended: set_limit assigns the internal counter to its
argument outright, so after a set_limit issued while H callers hold the
semaphore, up to H + max(n, 0) callers may hold it simultaneously (the
base-annotated bound below); the claimed bound by the current limit does
hold for sequences with no set_limit call, where at most max(initial, 0)
callers ever hold the semaphore; and set_limit n leaves the counter at
exactly n, which is below 0 precisely when n is negative. -/
theorem semaphore_amended (L : Int) (ops : List SemOp) (b' : SemB)
    (h : semRunB ⟨⟨L, 0⟩, L, 0⟩ ops = some b') :
    (b'.st.holders : Int) ≤ (b'.baseHolders : Int) + max b'.baseLimit 0 ∧
    b'.st.value + (b'.st.holders : Int) = b'.baseLimit + (b'.baseHolders : Int) ∧
    ((∀ n, SemOp.setLimit n ∉ ops) → (b'.st.holders : Int) ≤ max L 0) ∧
    (semRunB ⟨⟨L, 0⟩, L, 0⟩ ops).map SemB.st = semRun ⟨L, 0⟩ ops := by
  have hinv := semRunB_inv ops ⟨⟨L, 0⟩, L, 0⟩ b' h (by simp) (by simp)
  refine ⟨by omega, hinv.1, ?_, semRunB_proj ops _⟩
  intro hno
  have hbase := semRunB_base ops ⟨⟨L, 0⟩, L, 0⟩ b' h hno
  simp only [hbase.1, hbase.2] at hinv
  omega

/-- Claim C1 amended witness: one acquire from initial limit 2. -/
theorem semaphore_amended_witness :
    semRunB ⟨⟨2, 0⟩, 2, 0⟩ [SemOp.acquire] = some ⟨⟨1, 1⟩, 2, 0⟩ ∧
    (((1 : Nat) : Int) ≤ ((0 : Nat) : Int) + max (2 : Int) 0 ∧
      (1 : Int) + ((1 : Nat) : Int) = (2 : Int) + ((0 : Nat) : Int) ∧
      ((∀ n, SemOp.setLimit n ∉ [SemOp.acquire]) →
        ((1 : Nat) : Int) ≤ max (2 : Int) 0) ∧
      (semRunB ⟨⟨2, 0⟩, 2, 0⟩ [SemOp.acquire]).map SemB.st =
        semRun ⟨2, 0⟩ [SemOp.acquire]) :=
  ⟨by decide, semaphore_amended 2 [SemOp.acquire] ⟨⟨1, 1⟩, 2, 0⟩ (by decide)⟩

/-- Claim C3 counterexample: with max_retries = 2 and every probe attempt
failing in iteration 0, the retry loop of _download_manager issues a
request through the primary (aiohttp) transport again in iteration 1,
after the secondary (curl_cffi) transport has already been used: the
attempt sequence is primary, secondary, primary, secondary, which
violates the claimed one-way transition of the transport selector. -/
theorem probe_counterexample :
    (probeTrace 2 (fun _ _ => false)).1 =
      [Transport.primary, Transport.secondary, Transport.primary,
        Transport.secondary] ∧
    oneWayFallback (probeTrace 2 (fun _ _ => false)).1 = false := by decide

/-- Block structure of the probe attempt sequence, for any starting
iteration index. -/
theorem probeGo_blocks (ok : Nat → Transport → Bool) (m i : Nat) :
    ∃ bs : List (List Transport),
      (probeGo ok i m).1 = bs.flatten ∧
      ∀ b ∈ bs, b = [Transport.primary] ∨
        b = [Transport.primary, Transport.secondary] := by
  induction m generalizing i with
  | zero => exact ⟨[], by simp [probeGo], by simp⟩
  | succ m ih =>
    by_cases h1 : ok i Transport.primary
    · exact ⟨[[Transport.primary]], by simp [probeGo, h1], by simp⟩
    · by_cases h2 : ok i Transport.secondary
      · exact ⟨[[Transport.primary, Transport.secondary]],
          by simp [probeGo, h1, h2], by simp⟩
      · obtain ⟨bs, hbs, hall⟩ := ih (i + 1)
        refine ⟨[Transport.primary, Transport.secondary] :: bs, ?_, ?_⟩
        · simp [probeGo, h1, h2, hbs]
        · intro b hb
          rcases List.mem_cons.mp hb with hb | hb
          · right; exact hb
          · exact hall b hb

/-- Claim C3 amended: the transport fallback is one-way only within a
single retry iteration: every iteration attempts the primary transport
first and falls back to the secondary transport for the remainder of that
iteration only, so the attempt sequence of a session is a concatenation
of blocks, each of which is either just a primary attempt or a primary
attempt followed by a secondary attempt; a new retry iteration begins
again with the primary transport. -/
theorem probe_amended (m : Nat) (ok : Nat → Transport → Bool) :
    ∃ bs : List (List Transport),
      (probeTrace m ok).1 = bs.flatten ∧
      ∀ b ∈ bs, b = [Transport.primary] ∨
        b = [Transport.primary, Transport.secondary] :=
  probeGo_blocks ok m 0

/-- Claim C4 counterexample: in a multi-threaded session for a 1-byte
resource with 1-byte chunks and one chunk body of 1 byte, size_done runs
through 0, 1, 0, 1: the temp-file phase raises it to 1 and the manager
then executes self.size_done = 0 (the line right after the temp file
task runner in _multi_threaded_download), a decreasing step. -/
theorem sizeDone_counterexample :
    sizeTrace (multiSessionEvents 1 1 [1]) = [0, 1, 0, 1] ∧
    nonDecreasingB (sizeTrace (multiSessionEvents 1 1 [1])) = false := by decide

theorem scanl_head (sd : Nat) (evs : List SizeEvent) :
    (List.scanl applySize sd evs).head? = some sd := by
  cases evs <;> simp [List.scanl]

theorem resetMonoB_cons (a : Nat) (l : List Nat) (h : resetMonoB l = true)
    (hh : ∀ b ∈ l.head?, a ≤ b ∨ b = 0) : resetMonoB (a :: l) = true := by
  cases l with
  | nil => rfl
  | cons b l =>
    have hab := hh b rfl
    simp only [resetMonoB, Bool.and_eq_true, Bool.or_eq_true, decide_eq_true_eq]
    exact ⟨hab, h⟩

theorem nonDecreasingB_cons (a : Nat) (l : List Nat)
    (h : nonDecreasingB l = true) (hh : ∀ b ∈ l.head?, a ≤ b) :
    nonDecreasingB (a :: l) = true := by
  cases l with
  | nil => rfl
  | cons b l =>
    have hab := hh b rfl
    simp only [nonDecreasingB, Bool.and_eq_true, decide_eq_true_eq]
    exact ⟨hab, h⟩

theorem resetMonoB_scanl (evs : List SizeEvent) :
    ∀ sd, resetMonoB (List.scanl applySize sd evs) = true := by
  induction evs with
  | nil => intro sd; rfl
  | cons e evs ih =>
    intro sd
    rw [List.scanl_cons]
    apply resetMonoB_cons
    · exact ih _
    · intro b hb
      simp only [List.append_eq, List.nil_append] at hb
      rw [scanl_head, Option.mem_def, Option.some_inj] at hb
      subst hb
      cases e with
      | write n => left; exact Nat.le_add_right sd n
      | reset => right; rfl

theorem nonDecreasingB_scanl_writes (ws : List Nat) :
    ∀ sd, nonDecreasingB (List.scanl applySize sd (ws.map SizeEvent.write)) =
      true := by
  induction ws with
  | nil => intro sd; rfl
  | cons w ws ih =>
    intro sd
    rw [List.map_cons, List.scanl_cons]
    apply nonDecreasingB_cons
    · exact ih _
    · intro b hb
      simp only [List.append_eq, List.nil_append] at hb
      rw [scanl_head, Option.mem_def, Option.some_inj] at hb
      subst hb
      exact Nat.le_add_right sd w

/-- Claim C4 amended: every step of the allocator, of a chunk worker and
of the single-threaded writer adds to size_done and never decreases it;
the only decreasing steps of a session are the manager's explicit resets
of size_done to 0, namely the one right after the temp-file phase and
the one at the start of each single-threaded retry attempt, so the whole
session trace is non-decreasing except at steps that land on 0, and the
trace of any phase consisting of writes alone is non-decreasing. -/
theorem sizeDone_amended :
    (∀ sd e, sd ≤ applySize sd e ∨
      (applySize sd e = 0 ∧ e = SizeEvent.reset)) ∧
    (∀ ws : List Nat, nonDecreasingB (sizeTrace (ws.map SizeEvent.write)) = true) ∧
    (∀ t c, nonDecreasingB (sizeTrace (tempFileEvents t c)) = true) ∧
    (∀ t c lens, resetMonoB (sizeTrace (multiSessionEvents t c lens)) = true) ∧
    (∀ atts, resetMonoB (sizeTrace (singleSessionEvents atts)) = true) := by
  refine ⟨?_, ?_, ?_, ?_, ?_⟩
  · intro sd e
    cases e with
    | write n => left; exact Nat.le_add_right sd n
    | reset => right; exact ⟨rfl, rfl⟩
  · intro ws
    exact nonDecreasingB_scanl_writes ws 0
  · intro t c
    have hmap : tempFileEvents t c =
        ((chunkPlan t c).map chunkLen).map SizeEvent.write := by
      simp [tempFileEvents, List.map_map, Function.comp]
    rw [hmap]
    exact nonDecreasingB_scanl_writes _ 0
  · intro t c lens
    exact resetMonoB_scanl _ 0
  · intro atts
    exact resetMonoB_scanl _ 0

/-- Shift of the backoff exponent list by one position. -/
theorem range_pow_shift (i k : Nat) :
    (List.range (k + 1)).map (fun j => 2 ^ (i + j)) =
      2 ^ i :: (List.range k).map (fun j => 2 ^ (i + 1 + j)) := by
  rw [List.range_succ_eq_map, List.map_cons, List.map_map]
  refine congrArg₂ _ (by rw [Nat.add_zero]) ?_
  refine List.map_congr_left ?_
  intro j hj
  simp only [Function.comp]
  refine congrArg _ ?_
  omega

/-- The retry loop makes at most as many attempts as it has budget. -/
theorem chunkLoop_attempts_le (att : Nat → Att) :
    ∀ rem i, (chunkLoop att i rem).attempts ≤ rem := by
  intro rem
  induction rem with
  | zero => intro i; exact Nat.le_refl 0
  | succ rem ih =>
    intro i
    cases hatt : att i with
    | success n => simp [chunkLoop, hatt]
    | cancelled => simp [chunkLoop, hatt]
    | failure e =>
      by_cases hr : rem = 0
      · simp [chunkLoop, hatt, hr]
      · simp only [chunkLoop, hatt, if_neg hr]
        have hrec := ih (i + 1)
        omega

/-- Retry loop behavior when attempt k succeeds after k failures. -/
theorem chunkLoop_success (att : Nat → Att) :
    ∀ k rem i n, k < rem →
      (∀ j, j < k → ∃ e, att (i + j) = Att.failure e) →
      att (i + k) = Att.success n →
      chunkLoop att i rem =
        ⟨k + 1, (List.range k).map (fun j => 2 ^ (i + j)),
          LoopExit.completed n⟩ := by
  intro k
  induction k with
  | zero =>
    intro rem i n hk hfail hsucc
    rw [Nat.add_zero] at hsucc
    cases rem with
    | zero => omega
    | succ rem => simp [chunkLoop, hsucc]
  | succ k ih =>
    intro rem i n hk hfail hsucc
    obtain ⟨e0, he0⟩ := hfail 0 (Nat.succ_pos k)
    rw [Nat.add_zero] at he0
    cases rem with
    | zero => omega
    | succ rem =>
      have hrempos : ¬ rem = 0 := by omega
      have hfail' : ∀ j, j < k → ∃ e, att (i + 1 + j) = Att.failure e := by
        intro j hj
        obtain ⟨e, he⟩ := hfail (j + 1) (by omega)
        exact ⟨e, by rw [show i + 1 + j = i + (j + 1) from by omega]; exact he⟩
      have hsucc' : att (i + 1 + k) = Att.success n := by
        rw [show i + 1 + k = i + (k + 1) from by omega]; exact hsucc
      have hrec := ih rem (i + 1) n (by omega) hfail' hsucc'
      simp only [chunkLoop, he0, if_neg hrempos, hrec, range_pow_shift]

/-- Retry loop behavior when every attempt fails. -/
theorem chunkLoop_allfail (att : Nat → Att) :
    ∀ rem i e, 0 < rem →
      (∀ j, j < rem → ∃ x, att (i + j) = Att.failure x) →
      att (i + (rem - 1)) = Att.failure e →
      chunkLoop att i rem =
        ⟨rem, (List.range (rem - 1)).map (fun j => 2 ^ (i + j)),
          LoopExit.failed e⟩ := by
  intro rem
  induction rem with
  | zero => intro i e h0; omega
  | succ rem ih =>
    intro i e h0 hfail hlast
    cases hrem : rem with
    | zero =>
      subst hrem
      rw [Nat.add_zero] at hlast
      simp [chunkLoop, hlast]
    | succ rem' =>
      obtain ⟨e0, he0⟩ := hfail 0 (by omega)
      rw [Nat.add_zero] at he0
      have hrempos : ¬ rem = 0 := by omega
      have hfail' : ∀ j, j < rem → ∃ x, att (i + 1 + j) = Att.failure x := by
        intro j hj
        obtain ⟨x, hx⟩ := hfail (j + 1) (by omega)
        exact ⟨x, by rw [show i + 1 + j = i + (j + 1) from by omega]; exact hx⟩
      have hlast' : att (i + 1 + (rem - 1)) = Att.failure e := by
        rw [show i + 1 + (rem - 1) = i + (rem + 1 - 1) from by omega]
        exact hlast
      have hrec := ih (i + 1) e (by omega) hfail' hlast'
      rw [← hrem] at *
      have hlist : (List.range (rem + 1 - 1)).map (fun j => 2 ^ (i + j)) =
          2 ^ i :: (List.range (rem - 1)).map (fun j => 2 ^ (i + 1 + j)) := by
        rw [show rem + 1 - 1 = (rem - 1) + 1 from by omega, range_pow_shift]
      simp only [chunkLoop, he0, if_neg hrempos, hrec, hlist]

/-- Retry loop behavior when attempt k is a cancellation after k
failures. -/
theorem chunkLoop_cancel (att : Nat → Att) :
    ∀ k rem i, k < rem →
      (∀ j, j < k → ∃ e, att (i + j) = Att.failure e) →
      att (i + k) = Att.cancelled →
      chunkLoop att i rem =
        ⟨k + 1, (List.range k).map (fun j => 2 ^ (i + j)),
          LoopExit.cancelledExit⟩ := by
  intro k
  induction k with
  | zero =>
    intro rem i hk hfail hcancel
    rw [Nat.add_zero] at hcancel
    cases rem with
    | zero => omega
    | succ rem => simp [chunkLoop, hcancel]
  | succ k ih =>
    intro rem i hk hfail hcancel
    obtain ⟨e0, he0⟩ := hfail 0 (Nat.succ_pos k)
    rw [Nat.add_zero] at he0
    cases rem with
    | zero => omega
    | succ rem =>
      have hrempos : ¬ rem = 0 := by omega
      have hfail' : ∀ j, j < k → ∃ e, att (i + 1 + j) = Att.failure e := by
        intro j hj
        obtain ⟨e, he⟩ := hfail (j + 1) (by omega)
        exact ⟨e, by rw [show i + 1 + j = i + (j + 1) from by omega]; exact he⟩
      have hcancel' : att (i + 1 + k) = Att.cancelled := by
        rw [show i + 1 + k = i + (k + 1) from by omega]; exact hcancel
      have hrec := ih rem (i + 1) (by omega) hfail' hcancel'
      simp only [chunkLoop, he0, if_neg hrempos, hrec, range_pow_shift]

theorem loadChunk_attemptsMade (m : Nat) (att : Nat → Att) :
    (loadChunk m att).attemptsMade = (chunkLoop att 0 m).attempts := by
  cases hx : (chunkLoop att 0 m).exit <;> simp [loadChunk, hx]

/-- Claim C5: a chunk worker makes at most max_retries attempts; when
attempt k succeeds after k failed attempts (k < max_retries) it completes
with exactly the k backoff sleeps 2^0, ..., 2^(k-1), adds the received
bytes to size_done and surfaces no error; when all max_retries attempts
fail, the final attempt's error is propagated, after the max_retries - 1
backoff sleeps of the earlier failures. -/
theorem loadChunk_retry (m : Nat) (att : Nat → Att) :
    (loadChunk m att).attemptsMade ≤ m ∧
    (∀ k n, k < m → (∀ j, j < k → ∃ e, att j = Att.failure e) →
      att k = Att.success n →
      loadChunk m att =
        ⟨k + 1, (List.range k).map (fun j => 2 ^ j), n, 1, none⟩) ∧
    (∀ e, 0 < m → (∀ j, j < m → ∃ x, att j = Att.failure x) →
      att (m - 1) = Att.failure e →
      loadChunk m att =
        ⟨m, (List.range (m - 1)).map (fun j => 2 ^ j), 0, 1, some e⟩) := by
  refine ⟨?_, ?_, ?_⟩
  · rw [loadChunk_attemptsMade]
    exact chunkLoop_attempts_le att m 0
  · intro k n hk hfail hsucc
    have hc := chunkLoop_success att k m 0 n hk
      (by simpa using hfail) (by simpa using hsucc)
    simp only [Nat.zero_add] at hc
    unfold loadChunk
    rw [hc]
  · intro e h0 hfail hlast
    have hc := chunkLoop_allfail att m 0 e h0
      (by simpa using hfail) (by simpa using hlast)
    simp only [Nat.zero_add] at hc
    unfold loadChunk
    rw [hc]

/-- Claim C5 witness: max_retries = 3, two failures then a success on the
third attempt: three attempts, exactly the two backoff sleeps 1 and 2
seconds, 7 bytes added and no error; and the all-fail instance. -/
theorem loadChunk_retry_witness :
    (2 < 3 ∧
      (∀ j, j < 2 →
        ∃ e, (fun i => if i < 2 then Att.failure "boom" else Att.success 7) j =
          Att.failure e) ∧
      (fun i => if i < 2 then Att.failure "boom" else Att.success 7) 2 =
        Att.success 7) ∧
    loadChunk 3 (fun i => if i < 2 then Att.failure "boom" else Att.success 7) =
      ⟨2 + 1, (List.range 2).map (fun j => 2 ^ j), 7, 1, none⟩ ∧
    loadChunk 2 (fun _ => Att.failure "boom") =
      ⟨2, (List.range (2 - 1)).map (fun j => 2 ^ j), 0, 1, some "boom"⟩ :=
  ⟨⟨by decide,
    fun j hj => ⟨"boom", by
      show (if j < 2 then Att.failure "boom" else Att.success 7) = Att.failure "boom"
      rw [if_pos hj]⟩,
    by decide⟩,
  (loadChunk_retry 3
      (fun i => if i < 2 then Att.failure "boom" else Att.success 7)).2.1 2 7
    (by decide)
    (fun j hj => ⟨"boom", by
      show (if j < 2 then Att.failure "boom" else Att.success 7) = Att.failure "boom"
      rw [if_pos hj]⟩)
    (by decide),
  (loadChunk_retry 2 (fun _ => Att.failure "boom")).2.2 "boom" (by decide)
    (fun j hj => ⟨"boom", rfl⟩) rfl⟩

/-- Claim C6: on every exit path of a chunk worker that acquired the
semaphore the finally clause releases the slot exactly once, and when the
run ends by cooperative cancellation (after any number of failed
attempts) the worker exits with the release performed and no error
propagated. -/
theorem loadChunk_release (m : Nat) (att : Nat → Att) :
    (loadChunk m att).releases = 1 ∧
    (∀ k, k < m → (∀ j, j < k → ∃ e, att j = Att.failure e) →
      att k = Att.cancelled →
      loadChunk m att =
        ⟨k + 1, (List.range k).map (fun j => 2 ^ j), 0, 1, none⟩) := by
  constructor
  · cases hx : (chunkLoop att 0 m).exit <;> simp [loadChunk, hx]
  · intro k hk hfail hcancel
    have hc := chunkLoop_cancel att k m 0 hk
      (by simpa using hfail) (by simpa using hcancel)
    simp only [Nat.zero_add] at hc
    unfold loadChunk
    rw [hc]

/-- Claim C6 witness: one failure then a cancellation with
max_retries = 3: one release, no error propagated. -/
theorem loadChunk_release_witness :
    (loadChunk 3 (fun i => if i < 1 then Att.failure "boom" else Att.cancelled)).releases
        = 1 ∧
    (1 < 3 ∧
      (fun i => if i < 1 then Att.failure "boom" else Att.cancelled) 1 =
        Att.cancelled) ∧
    loadChunk 3 (fun i => if i < 1 then Att.failure "boom" else Att.cancelled) =
      ⟨1 + 1, (List.range 1).map (fun j => 2 ^ j), 0, 1, none⟩ :=
  ⟨(loadChunk_release 3
      (fun i => if i < 1 then Att.failure "boom" else Att.cancelled)).1,
  ⟨by decide, by decide⟩,
  (loadChunk_release 3
      (fun i => if i < 1 then Att.failure "boom" else Att.cancelled)).2 1
    (by decide)
    (fun j hj => ⟨"boom", by
      show (if j < 1 then Att.failure "boom" else Att.cancelled) = Att.failure "boom"
      rw [if_pos hj]⟩)
    (by decide)⟩

/-- Claim C9: an attempt whose body read and file write complete without
raising is treated as success even when the body length differs from the
requested range length end - start + 1: the worker performs no length
comparison, adds exactly the received byte count to size_done, stops
retrying after that attempt and surfaces no error. -/
theorem loadChunk_no_length_check (m s e n : Nat) (att : Nat → Att)
    (hm : 0 < m) (hfirst : att 0 = Att.success n) (_hne : n ≠ e - s + 1) :
    loadChunk m att = ⟨1, [], n, 1, none⟩ := by
  have hc := chunkLoop_success att 0 m 0 n hm (by omega) (by simpa using hfirst)
  simp only [List.range_zero, List.map_nil] at hc
  unfold loadChunk
  rw [hc]

/-- Claim C9 witness: a range of 10 bytes (0 to 9) answered by a 4-byte
body with max_retries = 3 still completes on the first attempt, adds
4 bytes and raises nothing. -/
theorem loadChunk_no_length_check_witness :
    (0 < 3 ∧ (fun _ => Att.success 4) 0 = Att.success 4 ∧ 4 ≠ 9 - 0 + 1) ∧
    loadChunk 3 (fun _ => Att.success 4) = ⟨1, [], 4, 1, none⟩ :=
  ⟨⟨by decide, rfl, by decide⟩,
    loadChunk_no_length_check 3 0 9 4 (fun _ => Att.success 4) (by decide) rfl
      (by decide)⟩

/-- Claim C7 counterexample: the constructor accepts any integer for
initial_dynamic_workers; with initial_dynamic_workers = -1 and a first
sample showing positive speed the controller increases the count by 2 and
calls set_limit with 1, which is below 2. -/
theorem ctrl_counterexample :
    (ctrlRun 5 ⟨-1, 0, ⟨0, 1⟩⟩ [5]).2 = [1] ∧ ¬ ((2 : Int) ≤ 1) := by decide

/-- One controller step keeps the worker count nonnegative and emits only
set_limit values of at least 2, provided the count was nonnegative. -/
theorem ctrlStep_cases (interval : Nat) (sd : Int) (s : CtrlState)
    (h0 : 0 ≤ s.dw) :
    0 ≤ (ctrlStep interval sd s).1.dw ∧
    ∀ v ∈ (ctrlStep interval sd s).2, 2 ≤ v := by
  unfold ctrlStep
  by_cases h1 : speedLt s.prevSpeed ⟨sd - s.prevDownloaded, interval⟩
  · constructor
    · simp only [h1, if_true]
      omega
    · intro v hv
      simp [h1] at hv
      omega
  · by_cases h2 : speedLt ⟨sd - s.prevDownloaded, interval⟩ s.prevSpeed
    · constructor
      · simp only [h1, h2, Bool.false_eq_true, if_false, if_true]
        omega
      · intro v hv
        simp [h1, h2] at hv
        omega
    · constructor
      · simp only [h1, h2, Bool.false_eq_true, if_false]
        omega
      · intro v hv
        simp [h1, h2] at hv

theorem ctrlRun_ge_two (interval : Nat) (samples : List Int) :
    ∀ s : CtrlState, 0 ≤ s.dw → ∀ v ∈ (ctrlRun interval s samples).2, 2 ≤ v := by
  induction samples with
  | nil =>
    intro s h0 v hv
    simp [ctrlRun] at hv
  | cons sd rest ih =>
    intro s h0 v hv
    simp only [ctrlRun, List.mem_append] at hv
    obtain ⟨hdw, hemit⟩ := ctrlStep_cases interval sd s h0
    rcases hv with hv | hv
    · exact hemit v (by simpa using hv)
    · exact ih _ hdw v hv

/-- Claim C7 amended: at each sampling step the limit grows by 2 when the
measured speed exceeds the previous sample's speed, shrinks by 2 with a
floor of 2 when the speed is lower, and is left unchanged (no set_limit
call) when equal; provided the configured initial dynamic worker count is
nonnegative (the package default is 2), every set_limit value the
controller emits is at least 2. -/
theorem ctrl_amended (interval : Nat) (s0 : CtrlState) (h0 : 0 ≤ s0.dw)
    (samples : List Int) :
    (∀ v ∈ (ctrlRun interval s0 samples).2, 2 ≤ v) ∧
    (∀ sd s,
      (speedLt s.prevSpeed ⟨sd - s.prevDownloaded, interval⟩ = true →
        ctrlStep interval sd s =
          (⟨s.dw + 2, sd, ⟨sd - s.prevDownloaded, interval⟩⟩,
            some (s.dw + 2))) ∧
      (speedLt s.prevSpeed ⟨sd - s.prevDownloaded, interval⟩ = false →
        speedLt ⟨sd - s.prevDownloaded, interval⟩ s.prevSpeed = true →
        ctrlStep interval sd s =
          (⟨max 2 (s.dw - 2), sd, ⟨sd - s.prevDownloaded, interval⟩⟩,
            some (max 2 (s.dw - 2)))) ∧
      (speedLt s.prevSpeed ⟨sd - s.prevDownloaded, interval⟩ = false →
        speedLt ⟨sd - s.prevDownloaded, interval⟩ s.prevSpeed = false →
        ctrlStep interval sd s =
          (⟨s.dw, sd, ⟨sd - s.prevDownloaded, interval⟩⟩, none))) := by
  refine ⟨ctrlRun_ge_two interval samples s0 h0, ?_⟩
  intro sd s
  refine ⟨?_, ?_, ?_⟩
  · intro h1
    simp [ctrlStep, h1]
  · intro h1 h2
    simp [ctrlStep, h1, h2]
  · intro h1 h2
    simp [ctrlStep, h1, h2]

/-- Claim C7 amended witness: initial count 2 and two samples with rising
then equal speed. -/
theorem ctrl_amended_witness :
    (0 : Int) ≤ (⟨2, 0, ⟨0, 1⟩⟩ : CtrlState).dw ∧
    ((∀ v ∈ (ctrlRun 5 ⟨2, 0, ⟨0, 1⟩⟩ [5, 10]).2, 2 ≤ v) ∧
      (∀ sd s,
        (speedLt s.prevSpeed ⟨sd - s.prevDownloaded, 5⟩ = true →
          ctrlStep 5 sd s =
            (⟨s.dw + 2, sd, ⟨sd - s.prevDownloaded, 5⟩⟩, some (s.dw + 2))) ∧
        (speedLt s.prevSpeed ⟨sd - s.prevDownloaded, 5⟩ = false →
          speedLt ⟨sd - s.prevDownloaded, 5⟩ s.prevSpeed = true →
          ctrlStep 5 sd s =
            (⟨max 2 (s.dw - 2), sd, ⟨sd - s.prevDownloaded, 5⟩⟩,
              some (max 2 (s.dw - 2)))) ∧
        (speedLt s.prevSpeed ⟨sd - s.prevDownloaded, 5⟩ = false →
          speedLt ⟨sd - s.prevDownloaded, 5⟩ s.prevSpeed = false →
          ctrlStep 5 sd s =
            (⟨s.dw, sd, ⟨sd - s.prevDownloaded, 5⟩⟩, none)))) :=
  ⟨by decide, ctrl_amended 5 ⟨2, 0, ⟨0, 1⟩⟩ (by decide) [5, 10]⟩

/-- The file-info probe is a pure function of its oracles. -/
theorem getFileInfoGo_congr {H : Type} (fname : H → String → String → String)
    (id : String) (prim1 sec1 prim2 sec2 : Nat → NetResult H)
    (hp : ∀ n, prim1 n = prim2 n) (hs : ∀ n, sec1 n = sec2 n) :
    ∀ rem i, getFileInfoGo fname id prim1 sec1 i rem =
      getFileInfoGo fname id prim2 sec2 i rem := by
  intro rem
  induction rem with
  | zero => intro i; rfl
  | succ rem ih =>
    intro i
    simp only [getFileInfoGo, hp i, hs i, ih (i + 1)]

/-- The file-info probe performs only network requests and sleeps: no
disk effect ever appears in its effect trace. -/
theorem getFileInfoGo_no_disk {H : Type} (fname : H → String → String → String)
    (id : String) (prim sec : Nat → NetResult H) :
    ∀ rem i fx, fx ∈ (getFileInfoGo fname id prim sec i rem).1 →
      fx ≠ Effect.diskWrite ∧ fx ≠ Effect.diskDelete := by
  intro rem
  induction rem with
  | zero =>
    intro i fx hfx
    simp [getFileInfoGo] at hfx
  | succ rem ih =>
    intro i fx hfx
    cases hp : attemptResult fname id (prim i) with
    | ok v =>
      simp [getFileInfoGo, hp] at hfx
      subst hfx
      exact ⟨by decide, by decide⟩
    | error e1 =>
      cases hss : attemptResult fname id (sec i) with
      | ok v =>
        simp [getFileInfoGo, hp, hss] at hfx
        rcases hfx with hfx | hfx <;> subst hfx <;> exact ⟨by decide, by decide⟩
      | error e2 =>
        by_cases hr : rem = 0
        · simp [getFileInfoGo, hp, hss, hr] at hfx
          rcases hfx with hfx | hfx <;> subst hfx <;> exact ⟨by decide, by decide⟩
        · simp only [getFileInfoGo, hp, hss, if_neg hr, List.mem_cons] at hfx
          rcases hfx with hfx | hfx | hfx | hfx
          · subst hfx; exact ⟨by simp, by simp⟩
          · subst hfx; exact ⟨by simp, by simp⟩
          · subst hfx; exact ⟨by simp, by simp⟩
          · exact ih (i + 1) fx hfx

/-- Claim C8: get_file_info is idempotent and side-effect free on disk:
two calls of the same downloader against the same server behavior (equal
attempt oracles) return identical filename and total_size results and
identical effect traces, and the effect trace never contains a disk write
or delete, including on runs that fail after exhausting the retries. -/
theorem getFileInfo_pure {H : Type} (fname : H → String → String → String)
    (id : String) (m : Nat) (prim1 sec1 prim2 sec2 : Nat → NetResult H)
    (hp : ∀ n, prim1 n = prim2 n) (hs : ∀ n, sec1 n = sec2 n) :
    getFileInfo fname id m prim1 sec1 = getFileInfo fname id m prim2 sec2 ∧
    (∀ fx ∈ (getFileInfo fname id m prim1 sec1).1,
      fx ≠ Effect.diskWrite ∧ fx ≠ Effect.diskDelete) :=
  ⟨getFileInfoGo_congr fname id prim1 sec1 prim2 sec2 hp hs m 0,
    fun fx hfx => getFileInfoGo_no_disk fname id prim1 sec1 m 0 fx hfx⟩

/-- Claim C8 witness: one retry budget, a primary response of 10 bytes
and a failing secondary oracle. -/
theorem getFileInfo_pure_witness :
    (∀ n : Nat,
      (fun _ : Nat => NetResult.ok (ProbeResp.mk 10 () "u")) n =
        (fun _ : Nat => NetResult.ok (ProbeResp.mk 10 () "u")) n) ∧
    (∀ n : Nat,
      (fun _ : Nat => (NetResult.err "e" : NetResult Unit)) n =
        (fun _ : Nat => (NetResult.err "e" : NetResult Unit)) n) ∧
    (getFileInfo (fun _ _ _ => "f") "AAAAAA" 1
        (fun _ => NetResult.ok (ProbeResp.mk 10 () "u"))
        (fun _ => (NetResult.err "e" : NetResult Unit)) =
      getFileInfo (fun _ _ _ => "f") "AAAAAA" 1
        (fun _ => NetResult.ok (ProbeResp.mk 10 () "u"))
        (fun _ => (NetResult.err "e" : NetResult Unit)) ∧
    (∀ fx ∈ (getFileInfo (fun _ _ _ => "f") "AAAAAA" 1
        (fun _ => NetResult.ok (ProbeResp.mk 10 () "u"))
        (fun _ => (NetResult.err "e" : NetResult Unit))).1,
      fx ≠ Effect.diskWrite ∧ fx ≠ Effect.diskDelete)) :=
  ⟨fun _ => rfl, fun _ => rfl,
    getFileInfo_pure (fun _ _ _ => "f") "AAAAAA" 1 _ _ _ _
      (fun _ => rfl) (fun _ => rfl)⟩

/-- Claim C10: stop() on a downloader whose is_running flag is false is a
no-op at the public interface: the state (is_running, download_success,
download_error, registered tasks) is unchanged, no task is cancelled, no
cleanup runs, no error is raised, and the only effect is the warning
log. -/
theorem stop_not_running (s : DLState) (h : s.isRunning = false) :
    stop s = (s, [StopEffect.warnLog stopNotRunningMsg]) ∧
    (stop s).1 = s ∧
    (∀ t, StopEffect.cancelTask t ∉ (stop s).2) ∧
    StopEffect.cleanupRun ∉ (stop s).2 := by
  have hstop : stop s = (s, [StopEffect.warnLog stopNotRunningMsg]) := by
    simp [stop, h]
  refine ⟨hstop, by rw [hstop], ?_, ?_⟩
  · intro t ht
    rw [hstop] at ht
    simp at ht
  · rw [hstop]
    simp

/-- Claim C10 witness: a stopped downloader with one registered task. -/
theorem stop_not_running_witness :
    (⟨false, false, none, [4]⟩ : DLState).isRunning = false ∧
    (stop ⟨false, false, none, [4]⟩ =
        (⟨false, false, none, [4]⟩, [StopEffect.warnLog stopNotRunningMsg]) ∧
      (stop ⟨false, false, none, [4]⟩).1 = ⟨false, false, none, [4]⟩ ∧
      (∀ t, StopEffect.cancelTask t ∉ (stop ⟨false, false, none, [4]⟩).2) ∧
      StopEffect.cleanupRun ∉ (stop ⟨false, false, none, [4]⟩).2) :=
  ⟨rfl, stop_not_running ⟨false, false, none, [4]⟩ rfl⟩

end TDL
